import Mathlib

/-!
Shallow embedding of the stew3d disassembler core (src/main.rs, src/opcode.rs,
src/instr.rs) and proofs about it.

Bytes are modelled as `Nat` (the Rust code works on `u8`; all arithmetic here
stays within byte range, so no wrap-around modelling is needed: addresses are
`usize` and only ever grow by instruction sizes).

The Rust `disassemble` uses a process-global `static mut GENSYM_COUNTER`;
here that global is threaded explicitly: `decodeLoop` and `disassemble` take
the counter value at entry, and `decodeLoop` returns the final value, exactly
as the sequence of `gensym` calls would leave the global.

Rust panics (`unreachable!` in `disassemble`'s two passes, and the
out-of-table branch of `Opcode::instruction_size`) are modelled as `none`
and as the `panic` outcome of the result types below, kept distinct from the
typed `Error` values that the Rust code returns to its caller.
-/

namespace Stew3d

/-! ### Opcodes (src/opcode.rs) -/

/-- Limits on the range of valid opcodes (opcode.rs: `OPCODE_MIN`). -/
def OPCODE_MIN : Nat := 0x00

/-- Limits on the range of valid opcodes (opcode.rs: `OPCODE_MAX`). -/
def OPCODE_MAX : Nat := 0xc8

/-- The Rust `Opcode` enum is `repr(u8)` with discriminants exactly
`0x00..=0xc8`; a value of the type is identified with its byte. -/
abbrev Opcode := {b : Nat // b ≤ OPCODE_MAX}

/-- Byte values of the jump-class opcodes (discriminant positions of
`JMP..CALL` in the `Opcode` enum; `CALL = 0xbc` is pinned down by the
repository's own `simple_disassembly` test). -/
def JMP : Nat := 0xb1
def JE : Nat := 0xb2
def JNE : Nat := 0xb3
def JG : Nat := 0xb4
def JGE : Nat := 0xb5
def JL : Nat := 0xb6
def JLE : Nat := 0xb7
def JA : Nat := 0xb8
def JAE : Nat := 0xb9
def JB : Nat := 0xba
def JBE : Nat := 0xbb
def CALL : Nat := 0xbc

/-- Byte values of the non-jump opcodes used by the repository's tests,
doc examples and the spec's scenarios. -/
def ADD_A_A : Nat := 0x00
def ADDI_A : Nat := 0x0c
def MVI_A : Nat := 0x7f
def LDS_A : Nat := 0x97
def STSI : Nat := 0x9e
def RET : Nat := 0xbd
def OUTI : Nat := 0xc1
def HLT : Nat := 0xc7
def NOP : Nat := 0xc8

/-- opcode.rs: `ConversionFailure(u8)`. -/
structure ConversionFailure where
  byte : Nat
deriving DecidableEq

/-- opcode.rs: `impl TryFrom<u8> for Opcode` — a byte in
`OPCODE_MIN..=OPCODE_MAX` is reinterpreted as the opcode with that
discriminant, anything else fails. -/
def Opcode.tryFrom (byte : Nat) : Except ConversionFailure Opcode :=
  if h : OPCODE_MIN ≤ byte ∧ byte ≤ OPCODE_MAX then .ok ⟨byte, h.2⟩
  else .error ⟨byte⟩

/-- First arm of the `match` in `Opcode::instruction_size`: the
1-byte-encoding opcode ranges. -/
def sizeOneRange (b : Nat) : Prop :=
  (b ≤ 0x0b)
    ∨ (0x10 ≤ b ∧ b ≤ 0x1b)
    ∨ (0x20 ≤ b ∧ b ≤ 0x28)
    ∨ (0x2d ≤ b ∧ b ≤ 0x35)
    ∨ (0x3a ≤ b ∧ b ≤ 0x3f)
    ∨ (0x43 ≤ b ∧ b ≤ 0x48)
    ∨ (0x4c ≤ b ∧ b ≤ 0x51)
    ∨ (0x55 ≤ b ∧ b ≤ 0x7e)
    ∨ (0x82 ≤ b ∧ b ≤ 0x96)
    ∨ (0x9f ≤ b ∧ b ≤ 0xaa)
    ∨ (0xbd ≤ b ∧ b ≤ 0xc0)
    ∨ (0xc4 ≤ b ∧ b ≤ 0xc8)

instance (b : Nat) : Decidable (sizeOneRange b) := by
  unfold sizeOneRange; infer_instance

/-- Second arm of the `match` in `Opcode::instruction_size`: the
2-byte-encoding opcode ranges. -/
def sizeTwoRange (b : Nat) : Prop :=
  (0x0c ≤ b ∧ b ≤ 0x0f)
    ∨ (0x1c ≤ b ∧ b ≤ 0x1f)
    ∨ (0x29 ≤ b ∧ b ≤ 0x2c)
    ∨ (0x36 ≤ b ∧ b ≤ 0x39)
    ∨ (0x40 ≤ b ∧ b ≤ 0x42)
    ∨ (0x49 ≤ b ∧ b ≤ 0x4b)
    ∨ (0x52 ≤ b ∧ b ≤ 0x54)
    ∨ (0x7f ≤ b ∧ b ≤ 0x81)
    ∨ (0x97 ≤ b ∧ b ≤ 0x9d)
    ∨ (0xab ≤ b ∧ b ≤ 0xbc)
    ∨ (0xc1 ≤ b ∧ b ≤ 0xc3)

instance (b : Nat) : Decidable (sizeTwoRange b) := by
  unfold sizeTwoRange; infer_instance

/-- Third arm of the `match` in `Opcode::instruction_size`: `stsi` alone has
a 3-byte encoding. -/
def sizeThreeRange (b : Nat) : Prop := b = 0x9e

instance (b : Nat) : Decidable (sizeThreeRange b) := by
  unfold sizeThreeRange; infer_instance

/-- The range match of `Opcode::instruction_size` on the raw byte.
`none` models the final `panic!` arm ("called instruction_size on invalid
opcode"). -/
def instrSizeByte (b : Nat) : Option Nat :=
  if sizeOneRange b then some 1
  else if sizeTwoRange b then some 2
  else if sizeThreeRange b then some 3
  else none

/-- opcode.rs: `Opcode::instruction_size` (matches on `self as u8`);
`none` is the panic branch. -/
def Opcode.instruction_size (op : Opcode) : Option Nat :=
  instrSizeByte op.val

/-- The opcode match arm `JMP | JE | JNE | JL | JLE | JG | JGE | JA | JAE |
JB | JBE | CALL` in `disassemble` (main.rs), on the raw byte. -/
def isJumpByte (b : Nat) : Bool :=
  b == JMP || b == JE || b == JNE || b == JL || b == JLE || b == JG
    || b == JGE || b == JA || b == JAE || b == JB || b == JBE || b == CALL

/-! ### Instructions (src/instr.rs) -/

/-- instr.rs: `Operands` — zero, one or two raw operand bytes. -/
inductive Operands where
  | Zero
  | One (first : Nat)
  | Two (first second : Nat)
deriving DecidableEq

/-- instr.rs: `Instruction` — label marker, jump with resolved label, or
plain instruction. -/
inductive Instruction where
  | Label (addr : Nat) (name : String)
  | Jump (addr : Nat) (op : Opcode) (target : Nat) (label : String)
  | Instr (addr : Nat) (op : Opcode) (operands : Operands)
deriving DecidableEq

/-- instr.rs: `Instruction::addr`. -/
def Instruction.addr : Instruction → Nat
  | .Label a _ => a
  | .Jump a _ _ _ => a
  | .Instr a _ _ => a

/-- instr.rs: `Instruction::to_bytes`. -/
def Instruction.to_bytes : Instruction → List Nat
  | .Label _ _ => []
  | .Jump _ op target _ => [op.val, target]
  | .Instr _ op operands =>
    match operands with
    | .Zero => [op.val]
    | .One first => [op.val, first]
    | .Two first second => [op.val, first, second]

/-- instr.rs: `Instruction::size`. -/
def Instruction.size (ins : Instruction) : Nat := ins.to_bytes.length

/-- Whether an instruction is a `Label` marker (instr.rs pattern
`Label(_, _)`). -/
def Instruction.isLabel : Instruction → Bool
  | .Label _ _ => true
  | _ => false

/-- The opcode of a non-label instruction (the `match ins` in the second
pass of `disassemble`); `none` for a `Label` models that pass's
`unreachable!` arm. -/
def instrOpcode : Instruction → Option Opcode
  | .Label _ _ => none
  | .Jump _ op _ _ => some op
  | .Instr _ op _ => some op

/-! ### The disassembler (src/main.rs) -/

/-- main.rs: the `Error` enum. `InvalidOpcode` carries only the raw byte;
`UnexpectedEndOfFile` carries the opcode whose operands were missing. -/
inductive Error where
  | InvalidOpcode (byte : Nat)
  | UnexpectedEndOfFile (op : Opcode)
deriving DecidableEq

/-- main.rs: `gensym` — the generated name for counter value `counter`
(the Rust function reads the global counter and then increments it; the
increment is performed by the callers below). -/
def gensym (base : String) (counter : Nat) : String := base ++ toString counter

/-- The `BiMap<usize, String>` of `disassemble`, as an association list,
newest entry first. Only `get_by_left` and `insert` are used, and `insert`
is only called on a key `get_by_left` just failed on, so an association
list models the bimap exactly on every state `disassemble` can reach. -/
abbrev LabelMap := List (Nat × String)

/-- `BiMap::get_by_left`. -/
def getByLeft (m : LabelMap) (a : Nat) : Option String :=
  match m with
  | [] => none
  | (a', s) :: rest => if a' = a then some s else getByLeft rest a

/-- Outcome of the first pass of `disassemble`: the decoded instructions,
the final label map, and the final value of the gensym counter — or a typed
error, or a panic (`unreachable!`). -/
inductive Pass1Result where
  | ok (instrs : List Instruction) (map : LabelMap) (counter : Nat)
  | error (e : Error)
  | panic
deriving DecidableEq

/-- First pass of `disassemble` (main.rs, the `while let` loop): classify
the opcode byte, consume operand bytes, resolve jump targets to labels,
record the instruction, advance the address. `counter` is the value of the
global `GENSYM_COUNTER` on entry of each iteration. -/
def decodeLoop : List Nat → Nat → LabelMap → Nat → Pass1Result
  | [], _, m, counter => .ok [] m counter
  | b :: rest, addr, m, counter =>
    match Opcode.tryFrom b with
    | .error cf => .error (.InvalidOpcode cf.byte)
    | .ok op =>
      match Opcode.instruction_size op with
      | some 1 =>
        match decodeLoop rest (addr + 1) m counter with
        | .ok instrs m' c' => .ok (.Instr addr op .Zero :: instrs) m' c'
        | r => r
      | some 2 =>
        match rest with
        | [] => .error (.UnexpectedEndOfFile op)
        | operand :: rest2 =>
          if isJumpByte b then
            match getByLeft m operand with
            | some label =>
              match decodeLoop rest2 (addr + 2) m counter with
              | .ok instrs m' c' => .ok (.Jump addr op operand label :: instrs) m' c'
              | r => r
            | none =>
              match decodeLoop rest2 (addr + 2) ((operand, gensym "l" counter) :: m)
                  (counter + 1) with
              | .ok instrs m' c' =>
                .ok (.Jump addr op operand (gensym "l" counter) :: instrs) m' c'
              | r => r
          else
            match decodeLoop rest2 (addr + 2) m counter with
            | .ok instrs m' c' => .ok (.Instr addr op (.One operand) :: instrs) m' c'
            | r => r
      | some 3 =>
        match rest with
        | [] => .error (.UnexpectedEndOfFile op)
        | [_] => .error (.UnexpectedEndOfFile op)
        | o1 :: o2 :: rest2 =>
          match decodeLoop rest2 (addr + 3) m counter with
          | .ok instrs m' c' => .ok (.Instr addr op (.Two o1 o2) :: instrs) m' c'
          | r => r
      | _ => .panic

/-- Second pass of `disassemble` (main.rs, the `for ins in &instrs` loop):
re-walk the instructions recomputing the running address, emitting a label
marker wherever the map has an entry for the current address. `none` models
the two panics reachable from this pass (a `Label` in the first-pass list,
or an opcode with no defined size). -/
def insertLabels : List Instruction → Nat → LabelMap → Option (List Instruction)
  | [], _, _ => some []
  | ins :: rest, addr, m =>
    let heads : List Instruction :=
      match getByLeft m addr with
      | some label => [.Label addr label]
      | none => []
    match instrOpcode ins with
    | none => none
    | some op =>
      match Opcode.instruction_size op with
      | none => none
      | some sz =>
        match insertLabels rest (addr + sz) m with
        | none => none
        | some tail => some (heads ++ ins :: tail)

/-- Outcome of `disassemble`: the final instruction sequence, a typed
error, or a panic. -/
inductive DResult where
  | ok (instrs : List Instruction)
  | error (e : Error)
  | panic
deriving DecidableEq

/-- main.rs: `disassemble`, with the value of the process-global
`GENSYM_COUNTER` at entry passed explicitly. The `?` on `try_into` converts
a `ConversionFailure` into `Error::InvalidOpcode` carrying the same byte
(the repository's `errs_on_invalid_opcode` test pins this conversion down). -/
def disassemble (bytes : List Nat) (gensymCounter : Nat) : DResult :=
  match decodeLoop bytes 0 [] gensymCounter with
  | .error e => .error e
  | .panic => .panic
  | .ok instrs m _ =>
    match insertLabels instrs 0 m with
    | none => .panic
    | some out => .ok out

/-! ### Specification-side definitions

These definitions are the vocabulary the theorems below are stated in; they
are not part of the embedded program. -/

/-- Numeric value of a decimal digit character. -/
def digitVal (ch : Char) : Nat := ch.toNat - 48

/-- Numeric value of a list of decimal digit characters (most significant
first). -/
def digitsVal (l : List Char) : Nat := l.foldl (fun a ch => a * 10 + digitVal ch) 0

/-- Targets of the jump instructions of a sequence, in sequence order. -/
def jumpTargets (l : List Instruction) : List Nat :=
  l.filterMap fun i =>
    match i with
    | .Jump _ _ t _ => some t
    | _ => none

/-- Append the elements of `l` not yet present to the accumulator, keeping
first-encounter order. -/
def dedupAcc : List Nat → List Nat → List Nat
  | acc, [] => acc
  | acc, t :: rest => if t ∈ acc then dedupAcc acc rest else dedupAcc (acc ++ [t]) rest

/-- The distinct elements of `l` in order of first encounter. -/
def dedupFirst (l : List Nat) : List Nat := dedupAcc [] l

/-- The label map obtained after the targets `ts` (in first-encounter order)
have each been assigned a fresh name, the first from counter value `c0`:
newest entry first, exactly as the decode loop builds it. -/
def mapOf (c0 : Nat) : List Nat → LabelMap
  | [] => []
  | t :: ts => mapOf (c0 + 1) ts ++ [(t, gensym "l" c0)]

/-- Well-formedness of a first-pass instruction list starting at address
`a`: every element is a non-label whose stored address is the running
address, whose opcode has a table-defined size equal to the instruction's
own byte length, and the running address advances by that size. -/
def pass1WF : List Instruction → Nat → Prop
  | [], _ => True
  | ins :: rest, a =>
    ins.addr = a ∧
    ∃ op sz, instrOpcode ins = some op ∧ Opcode.instruction_size op = some sz ∧
      ins.size = sz ∧ pass1WF rest (a + sz)

/-- Well-formedness of the final (second-pass) sequence at running address
`r`: each label marker carries the running address and is immediately
followed by a non-label; each non-label carries the running address and
advances it by its own byte length. -/
def outWF : List Instruction → Nat → Prop
  | [], _ => True
  | .Label a _ :: rest, r =>
    a = r ∧
    (match rest with
     | [] => False
     | ins :: _ => ins.isLabel = false) ∧
    outWF rest r
  | ins :: rest, r => ins.addr = r ∧ outWF rest (r + ins.size)

/-- Total byte length of a sequence of instructions. -/
def byteLen (l : List Instruction) : Nat := (l.map Instruction.size).sum

/-- Whether an instruction is a label marker at address `t`. -/
def isLabelAt (t : Nat) : Instruction → Bool
  | .Label a _ => a == t
  | _ => false

/-! ### Decimal printing is injective (for distinctness of gensym names) -/

theorem digitVal_digitChar : ∀ d < 10, digitVal (Nat.digitChar d) = d := by decide

theorem digitsVal_append_singleton (l : List Char) (ch : Char) :
    digitsVal (l ++ [ch]) = digitsVal l * 10 + digitVal ch := by
  unfold digitsVal
  rw [List.foldl_append]
  rfl

theorem toDigitsCore_append (n : Nat) : ∀ f ds, n < f →
    Nat.toDigitsCore 10 f n ds = Nat.toDigitsCore 10 (n + 1) n [] ++ ds := by
  induction n using Nat.strong_induction_on with
  | _ n ih =>
    intro f ds hf
    match f, hf with
    | f + 1, hf =>
      by_cases h : n / 10 = 0
      · simp [Nat.toDigitsCore, h]
      · have hn : 0 < n := by
          rcases Nat.eq_zero_or_pos n with h0 | h0
          · subst h0; simp at h
          · exact h0
        have hdiv : n / 10 < n := Nat.div_lt_self hn (by norm_num)
        have hf' : n / 10 < f := lt_of_lt_of_le hdiv (Nat.lt_succ_iff.mp hf)
        show Nat.toDigitsCore 10 (f + 1) n ds = Nat.toDigitsCore 10 (n + 1) n [] ++ ds
        rw [show Nat.toDigitsCore 10 (f + 1) n ds
              = Nat.toDigitsCore 10 f (n / 10) (Nat.digitChar (n % 10) :: ds) by
            simp [Nat.toDigitsCore, h]]
        rw [show Nat.toDigitsCore 10 (n + 1) n []
              = Nat.toDigitsCore 10 n (n / 10) (Nat.digitChar (n % 10) :: []) by
            simp [Nat.toDigitsCore, h]]
        rw [ih (n / 10) hdiv f (Nat.digitChar (n % 10) :: ds) hf']
        rw [ih (n / 10) hdiv n (Nat.digitChar (n % 10) :: []) hdiv]
        simp

theorem digitsVal_toDigits (n : Nat) : digitsVal (Nat.toDigits 10 n) = n := by
  induction n using Nat.strong_induction_on with
  | _ n ih =>
    unfold Nat.toDigits
    by_cases h : n / 10 = 0
    · have hlt : n < 10 := (Nat.div_eq_zero_iff (by norm_num)).mp h
      rw [show Nat.toDigitsCore 10 (n + 1) n [] = [Nat.digitChar (n % 10)] by
        simp [Nat.toDigitsCore, h]]
      have hmod : n % 10 = n := Nat.mod_eq_of_lt hlt
      simp [digitsVal, hmod, digitVal_digitChar n hlt]
    · have hn : 0 < n := by
        rcases Nat.eq_zero_or_pos n with h0 | h0
        · subst h0; simp at h
        · exact h0
      have hdiv : n / 10 < n := Nat.div_lt_self hn (by norm_num)
      rw [show Nat.toDigitsCore 10 (n + 1) n []
            = Nat.toDigitsCore 10 n (n / 10) (Nat.digitChar (n % 10) :: []) by
          simp [Nat.toDigitsCore, h]]
      rw [toDigitsCore_append (n / 10) n (Nat.digitChar (n % 10) :: []) hdiv]
      rw [show (Nat.digitChar (n % 10) :: []) = [Nat.digitChar (n % 10)] from rfl]
      rw [digitsVal_append_singleton]
      rw [show Nat.toDigitsCore 10 (n / 10 + 1) (n / 10) [] = Nat.toDigits 10 (n / 10) from rfl]
      rw [ih (n / 10) hdiv]
      rw [digitVal_digitChar (n % 10) (Nat.mod_lt n (by norm_num))]
      omega

theorem natRepr_injective {m n : Nat} (h : Nat.repr m = Nat.repr n) : m = n := by
  have hd : Nat.toDigits 10 m = Nat.toDigits 10 n := by
    have := congrArg String.data h
    simpa [Nat.repr, List.asString] using this
  have := congrArg digitsVal hd
  rwa [digitsVal_toDigits, digitsVal_toDigits] at this

theorem gensym_injective (base : String) {k1 k2 : Nat}
    (h : gensym base k1 = gensym base k2) : k1 = k2 := by
  have hd := congrArg String.data h
  simp only [gensym, String.data_append] at hd
  have hdata := List.append_cancel_left hd
  have hs : toString k1 = toString k2 := by
    cases hts : toString k1
    cases hts2 : toString k2
    simp_all
  exact natRepr_injective hs

/-! ### Basic facts about the embedded pieces -/

theorem tryFrom_ok {b : Nat} {op : Opcode} (h : Opcode.tryFrom b = .ok op) :
    op.val = b ∧ b ≤ OPCODE_MAX := by
  unfold Opcode.tryFrom at h
  split at h
  next hc =>
    cases h
    exact ⟨rfl, hc.2⟩
  next => cases h

theorem tryFrom_valid {b : Nat} (h : b ≤ OPCODE_MAX) :
    Opcode.tryFrom b = .ok ⟨b, h⟩ := by
  unfold Opcode.tryFrom
  rw [dif_pos ⟨Nat.zero_le b, h⟩]

theorem tryFrom_invalid {b : Nat} (h : OPCODE_MAX < b) :
    Opcode.tryFrom b = .error ⟨b⟩ := by
  unfold Opcode.tryFrom
  rw [dif_neg]
  intro hc
  exact absurd hc.2 (Nat.not_le.mpr h)

theorem instrSizeByte_values {b sz : Nat} (h : instrSizeByte b = some sz) :
    sz = 1 ∨ sz = 2 ∨ sz = 3 := by
  unfold instrSizeByte at h
  split at h
  · cases h; exact Or.inl rfl
  · split at h
    · cases h; exact Or.inr (Or.inl rfl)
    · split at h
      · cases h; exact Or.inr (Or.inr rfl)
      · cases h

theorem instrSizeByte_pos {b sz : Nat} (h : instrSizeByte b = some sz) : 1 ≤ sz := by
  rcases instrSizeByte_values h with h1 | h2 | h3 <;> omega

/-! ### Label-map lemmas -/

theorem getByLeft_append (m1 m2 : LabelMap) (a : Nat) :
    getByLeft (m1 ++ m2) a =
      match getByLeft m1 a with
      | some s => some s
      | none => getByLeft m2 a := by
  induction m1 with
  | nil => simp [getByLeft]
  | cons p rest ih =>
    obtain ⟨a', s⟩ := p
    by_cases h : a' = a
    · simp [getByLeft, h]
    · simp [getByLeft, h, ih]

theorem getByLeft_mapOf_not_mem {t : Nat} : ∀ {ts : List Nat} (c0 : Nat), t ∉ ts →
    getByLeft (mapOf c0 ts) t = none := by
  intro ts
  induction ts with
  | nil => intro c0 _; simp [mapOf, getByLeft]
  | cons s ts' ih =>
    intro c0 h
    have hne : s ≠ t := fun hc => h (hc ▸ List.mem_cons_self s ts')
    have hnot : t ∉ ts' := fun hc => h (List.mem_cons_of_mem s hc)
    rw [mapOf, getByLeft_append, ih (c0 + 1) hnot]
    simp [getByLeft, hne]

theorem getByLeft_mapOf_mem {t : Nat} : ∀ {ts : List Nat} (c0 : Nat), ts.Nodup → t ∈ ts →
    getByLeft (mapOf c0 ts) t = some (gensym "l" (c0 + ts.indexOf t)) := by
  intro ts
  induction ts with
  | nil => intro c0 _ h; cases h
  | cons s ts' ih =>
    intro c0 hnd hmem
    rw [mapOf, getByLeft_append]
    rcases List.mem_cons.mp hmem with rfl | hmem'
    · have hnot : t ∉ ts' := (List.nodup_cons.mp hnd).1
      rw [getByLeft_mapOf_not_mem (c0 + 1) hnot]
      simp [getByLeft, List.indexOf_cons_self]
    · have hne : s ≠ t := by
        rintro rfl
        exact (List.nodup_cons.mp hnd).1 hmem'
      rw [ih (c0 + 1) (List.nodup_cons.mp hnd).2 hmem']
      simp only [List.indexOf_cons_ne _ (by exact hne)]
      have : c0 + 1 + List.indexOf t ts' = c0 + (List.indexOf t ts').succ := by omega
      rw [this]

theorem mapOf_append_one (t : Nat) : ∀ (ts : List Nat) (c0 : Nat),
    mapOf c0 (ts ++ [t]) = (t, gensym "l" (c0 + ts.length)) :: mapOf c0 ts := by
  intro ts
  induction ts with
  | nil => intro c0; simp [mapOf]
  | cons s ts' ih =>
    intro c0
    show mapOf (c0 + 1) (ts' ++ [t]) ++ [(s, gensym "l" c0)] = _
    rw [ih (c0 + 1), List.cons_append]
    have harith : c0 + 1 + ts'.length = c0 + (s :: ts').length := by
      simp only [List.length_cons]
      omega
    rw [harith]
    rfl

/-! ### Dedup-accumulator lemmas -/

theorem dedupAcc_prefix : ∀ (l ts : List Nat), ∃ ex, dedupAcc ts l = ts ++ ex := by
  intro l
  induction l with
  | nil => intro ts; exact ⟨[], by simp [dedupAcc]⟩
  | cons t rest ih =>
    intro ts
    by_cases h : t ∈ ts
    · rw [dedupAcc, if_pos h]; exact ih ts
    · rw [dedupAcc, if_neg h]
      obtain ⟨ex, hex⟩ := ih (ts ++ [t])
      exact ⟨t :: ex, by simp [hex]⟩

theorem dedupAcc_nodup : ∀ (l ts : List Nat), ts.Nodup → (dedupAcc ts l).Nodup := by
  intro l
  induction l with
  | nil => intro ts h; exact h
  | cons t rest ih =>
    intro ts h
    by_cases hm : t ∈ ts
    · rw [dedupAcc, if_pos hm]; exact ih ts h
    · rw [dedupAcc, if_neg hm]
      refine ih (ts ++ [t]) ?_
      simp [List.nodup_append, h, hm]

theorem dedupAcc_mem_of_mem_acc {t : Nat} : ∀ (l ts : List Nat), t ∈ ts → t ∈ dedupAcc ts l := by
  intro l ts h
  obtain ⟨ex, hex⟩ := dedupAcc_prefix l ts
  rw [hex]
  exact List.mem_append_left ex h

theorem dedupAcc_indexOf_of_mem_acc {t : Nat} : ∀ (l ts : List Nat), t ∈ ts →
    (dedupAcc ts l).indexOf t = ts.indexOf t := by
  intro l ts h
  obtain ⟨ex, hex⟩ := dedupAcc_prefix l ts
  rw [hex, List.indexOf_append_of_mem h]

theorem jumpTargets_nil : jumpTargets [] = [] := rfl

theorem jumpTargets_cons_instr (a : Nat) (op : Opcode) (ops : Operands) (l : List Instruction) :
    jumpTargets (.Instr a op ops :: l) = jumpTargets l := rfl

theorem jumpTargets_cons_label (a : Nat) (nm : String) (l : List Instruction) :
    jumpTargets (.Label a nm :: l) = jumpTargets l := rfl

theorem jumpTargets_cons_jump (a : Nat) (op : Opcode) (t : Nat) (nm : String)
    (l : List Instruction) : jumpTargets (.Jump a op t nm :: l) = t :: jumpTargets l := rfl

theorem dedupAcc_cons_mem {t : Nat} {ts : List Nat} (h : t ∈ ts) (l : List Nat) :
    dedupAcc ts (t :: l) = dedupAcc ts l := by
  show (if t ∈ ts then dedupAcc ts l else dedupAcc (ts ++ [t]) l) = dedupAcc ts l
  rw [if_pos h]

theorem dedupAcc_cons_not_mem {t : Nat} {ts : List Nat} (h : t ∉ ts) (l : List Nat) :
    dedupAcc ts (t :: l) = dedupAcc (ts ++ [t]) l := by
  show (if t ∈ ts then dedupAcc ts l else dedupAcc (ts ++ [t]) l) = dedupAcc (ts ++ [t]) l
  rw [if_neg h]

theorem decodeLoop_ok_spec :
    ∀ (bytes : List Nat) (addr : Nat) (m : LabelMap) (c : Nat)
      (c0 : Nat) (ts : List Nat) (instrs : List Instruction) (m2 : LabelMap) (c2 : Nat),
      m = mapOf c0 ts → c = c0 + ts.length → ts.Nodup →
      decodeLoop bytes addr m c = .ok instrs m2 c2 →
      m2 = mapOf c0 (dedupAcc ts (jumpTargets instrs)) ∧
      c2 = c0 + (dedupAcc ts (jumpTargets instrs)).length ∧
      (dedupAcc ts (jumpTargets instrs)).Nodup ∧
      (∀ a op t nm, Instruction.Jump a op t nm ∈ instrs →
        t ∈ dedupAcc ts (jumpTargets instrs) ∧
        nm = gensym "l" (c0 + (dedupAcc ts (jumpTargets instrs)).indexOf t)) ∧
      (instrs.map Instruction.to_bytes).flatten = bytes ∧
      pass1WF instrs addr := by
  intro bytes addr m c
  induction bytes, addr, m, c using decodeLoop.induct with
  | case1 addr m counter =>
    intro c0 ts instrs m2 c2 hm hc hnd h
    simp only [decodeLoop] at h
    cases h
    simp only [jumpTargets_nil, dedupAcc]
    refine ⟨hm, hc, hnd, ?_, rfl, trivial⟩
    intro a op t nm hmem
    cases hmem
  | case2 b rest addr m counter cf htf =>
    intro c0 ts instrs m2 c2 hm hc hnd h
    simp only [decodeLoop, htf] at h
    exact Pass1Result.noConfusion h
  | case3 b rest addr m counter op htf hsz is1 m1 c1 hrec ih =>
    intro c0 ts instrs m2 c2 hm hc hnd h
    simp only [decodeLoop, htf, hsz, hrec] at h
    cases h
    obtain ⟨hval, hle⟩ := tryFrom_ok htf
    obtain ⟨ihm, ihc, ihnd, ihj, ihrt, ihwf⟩ := ih c0 ts is1 m1 c1 hm hc hnd hrec
    simp only [jumpTargets_cons_instr]
    refine ⟨ihm, ihc, ihnd, ?_, ?_, ?_⟩
    · intro a op2 t nm hmem
      rcases List.mem_cons.mp hmem with heq | hmem2
      · exact Instruction.noConfusion heq
      · exact ihj a op2 t nm hmem2
    · simp only [List.map_cons, List.flatten_cons, Instruction.to_bytes, hval, ihrt]
      rfl
    · rw [pass1WF]
      exact ⟨rfl, op, 1, rfl, hsz, rfl, ihwf⟩
  | case4 b rest addr m counter op htf hsz hnotok ih =>
    intro c0 ts instrs m2 c2 hm hc hnd h
    cases hr : decodeLoop rest (addr + 1) m counter with
    | ok is1 m1 c1 => exact (hnotok is1 m1 c1 hr).elim
    | error e =>
      simp only [decodeLoop, htf, hsz, hr] at h
      exact Pass1Result.noConfusion h
    | panic =>
      simp only [decodeLoop, htf, hsz, hr] at h
      exact Pass1Result.noConfusion h
  | case5 b addr m counter op htf hsz =>
    intro c0 ts instrs m2 c2 hm hc hnd h
    simp only [decodeLoop, htf, hsz] at h
    exact Pass1Result.noConfusion h
  | case6 b addr m counter op htf hsz operand rest2 hjump label hfound is1 m1 c1 hrec ih =>
    intro c0 ts instrs m2 c2 hm hc hnd h
    simp only [decodeLoop, htf, hsz, hjump, if_true, hfound, hrec] at h
    cases h
    obtain ⟨hval, hle⟩ := tryFrom_ok htf
    obtain ⟨ihm, ihc, ihnd, ihj, ihrt, ihwf⟩ := ih c0 ts is1 m1 c1 hm hc hnd hrec
    have hmem_ts : operand ∈ ts := by
      by_contra hno
      rw [hm, getByLeft_mapOf_not_mem c0 hno] at hfound
      exact Option.noConfusion hfound
    have hlabel : label = gensym "l" (c0 + ts.indexOf operand) := by
      rw [hm, getByLeft_mapOf_mem c0 hnd hmem_ts] at hfound
      exact (Option.some.inj hfound).symm
    simp only [jumpTargets_cons_jump, dedupAcc_cons_mem hmem_ts]
    refine ⟨ihm, ihc, ihnd, ?_, ?_, ?_⟩
    · intro a op2 t nm hmem
      rcases List.mem_cons.mp hmem with heq | hmem2
      · injection heq with h1 h2 h3 h4
        refine ⟨?_, ?_⟩
        · rw [h3]
          exact dedupAcc_mem_of_mem_acc _ _ hmem_ts
        · rw [h4, h3, dedupAcc_indexOf_of_mem_acc _ _ hmem_ts]
          exact hlabel
      · exact ihj a op2 t nm hmem2
    · simp only [List.map_cons, List.flatten_cons, Instruction.to_bytes, hval, ihrt]
      rfl
    · rw [pass1WF]
      exact ⟨rfl, op, 2, rfl, hsz, rfl, ihwf⟩
  | case7 b addr m counter op htf hsz operand rest2 hjump label hfound hnotok ih =>
    intro c0 ts instrs m2 c2 hm hc hnd h
    cases hr : decodeLoop rest2 (addr + 2) m counter with
    | ok is1 m1 c1 => exact (hnotok is1 m1 c1 hr).elim
    | error e =>
      simp only [decodeLoop, htf, hsz, hjump, if_true, hfound, hr] at h
      exact Pass1Result.noConfusion h
    | panic =>
      simp only [decodeLoop, htf, hsz, hjump, if_true, hfound, hr] at h
      exact Pass1Result.noConfusion h
  | case8 b addr m counter op htf hsz operand rest2 hjump hnone is1 m1 c1 hrec ih =>
    intro c0 ts instrs m2 c2 hm hc hnd h
    simp only [decodeLoop, htf, hsz, hjump, if_true, hnone, hrec] at h
    cases h
    obtain ⟨hval, hle⟩ := tryFrom_ok htf
    have hnotmem : operand ∉ ts := by
      intro hmem
      rw [hm, getByLeft_mapOf_mem c0 hnd hmem] at hnone
      exact Option.noConfusion hnone
    have hm1 : (operand, gensym "l" counter) :: m = mapOf c0 (ts ++ [operand]) := by
      rw [mapOf_append_one, hm, hc]
    have hc1 : counter + 1 = c0 + (ts ++ [operand]).length := by
      simp only [List.length_append, List.length_cons, List.length_nil]
      omega
    have hnd1 : (ts ++ [operand]).Nodup := by
      simp [List.nodup_append, hnd, hnotmem]
    have hmem1 : operand ∈ ts ++ [operand] :=
      List.mem_append_right ts (List.mem_singleton.mpr rfl)
    obtain ⟨ihm, ihc, ihnd, ihj, ihrt, ihwf⟩ :=
      ih c0 (ts ++ [operand]) is1 m1 c1 hm1 hc1 hnd1 hrec
    have hidx : (ts ++ [operand]).indexOf operand = ts.length := by
      rw [List.indexOf_append_of_not_mem hnotmem]
      simp [List.indexOf_cons_self]
    simp only [jumpTargets_cons_jump, dedupAcc_cons_not_mem hnotmem]
    refine ⟨ihm, ihc, ihnd, ?_, ?_, ?_⟩
    · intro a op2 t nm hmem
      rcases List.mem_cons.mp hmem with heq | hmem2
      · injection heq with h1 h2 h3 h4
        refine ⟨?_, ?_⟩
        · rw [h3]
          exact dedupAcc_mem_of_mem_acc _ _ hmem1
        · rw [h4, h3, dedupAcc_indexOf_of_mem_acc _ _ hmem1, hidx, hc]
      · exact ihj a op2 t nm hmem2
    · simp only [List.map_cons, List.flatten_cons, Instruction.to_bytes, hval, ihrt]
      rfl
    · rw [pass1WF]
      exact ⟨rfl, op, 2, rfl, hsz, rfl, ihwf⟩
  | case9 b addr m counter op htf hsz operand rest2 hjump hnone hnotok ih =>
    intro c0 ts instrs m2 c2 hm hc hnd h
    cases hr : decodeLoop rest2 (addr + 2) ((operand, gensym "l" counter) :: m) (counter + 1) with
    | ok is1 m1 c1 => exact (hnotok is1 m1 c1 hr).elim
    | error e =>
      simp only [decodeLoop, htf, hsz, hjump, if_true, hnone, hr] at h
      exact Pass1Result.noConfusion h
    | panic =>
      simp only [decodeLoop, htf, hsz, hjump, if_true, hnone, hr] at h
      exact Pass1Result.noConfusion h
  | case10 b addr m counter op htf hsz operand rest2 hnjump is1 m1 c1 hrec ih =>
    intro c0 ts instrs m2 c2 hm hc hnd h
    simp only [decodeLoop, htf, hsz] at h
    rw [if_neg hnjump] at h
    simp only [hrec] at h
    cases h
    obtain ⟨hval, hle⟩ := tryFrom_ok htf
    obtain ⟨ihm, ihc, ihnd, ihj, ihrt, ihwf⟩ := ih c0 ts is1 m1 c1 hm hc hnd hrec
    simp only [jumpTargets_cons_instr]
    refine ⟨ihm, ihc, ihnd, ?_, ?_, ?_⟩
    · intro a op2 t nm hmem
      rcases List.mem_cons.mp hmem with heq | hmem2
      · exact Instruction.noConfusion heq
      · exact ihj a op2 t nm hmem2
    · simp only [List.map_cons, List.flatten_cons, Instruction.to_bytes, hval, ihrt]
      rfl
    · rw [pass1WF]
      exact ⟨rfl, op, 2, rfl, hsz, rfl, ihwf⟩
  | case11 b addr m counter op htf hsz operand rest2 hnjump hnotok ih =>
    intro c0 ts instrs m2 c2 hm hc hnd h
    cases hr : decodeLoop rest2 (addr + 2) m counter with
    | ok is1 m1 c1 => exact (hnotok is1 m1 c1 hr).elim
    | error e =>
      simp only [decodeLoop, htf, hsz] at h
      rw [if_neg hnjump] at h
      simp only [hr] at h
      exact Pass1Result.noConfusion h
    | panic =>
      simp only [decodeLoop, htf, hsz] at h
      rw [if_neg hnjump] at h
      simp only [hr] at h
      exact Pass1Result.noConfusion h
  | case12 b addr m counter op htf hsz =>
    intro c0 ts instrs m2 c2 hm hc hnd h
    simp only [decodeLoop, htf, hsz] at h
    exact Pass1Result.noConfusion h
  | case13 b addr m counter op htf hsz hd =>
    intro c0 ts instrs m2 c2 hm hc hnd h
    simp only [decodeLoop, htf, hsz] at h
    exact Pass1Result.noConfusion h
  | case14 b addr m counter op htf hsz o1 o2 rest2 is1 m1 c1 hrec ih =>
    intro c0 ts instrs m2 c2 hm hc hnd h
    simp only [decodeLoop, htf, hsz, hrec] at h
    cases h
    obtain ⟨hval, hle⟩ := tryFrom_ok htf
    obtain ⟨ihm, ihc, ihnd, ihj, ihrt, ihwf⟩ := ih c0 ts is1 m1 c1 hm hc hnd hrec
    simp only [jumpTargets_cons_instr]
    refine ⟨ihm, ihc, ihnd, ?_, ?_, ?_⟩
    · intro a op2 t nm hmem
      rcases List.mem_cons.mp hmem with heq | hmem2
      · exact Instruction.noConfusion heq
      · exact ihj a op2 t nm hmem2
    · simp only [List.map_cons, List.flatten_cons, Instruction.to_bytes, hval, ihrt]
      rfl
    · rw [pass1WF]
      exact ⟨rfl, op, 3, rfl, hsz, rfl, ihwf⟩
  | case15 b addr m counter op htf hsz o1 o2 rest2 hnotok ih =>
    intro c0 ts instrs m2 c2 hm hc hnd h
    cases hr : decodeLoop rest2 (addr + 3) m counter with
    | ok is1 m1 c1 => exact (hnotok is1 m1 c1 hr).elim
    | error e =>
      simp only [decodeLoop, htf, hsz, hr] at h
      exact Pass1Result.noConfusion h
    | panic =>
      simp only [decodeLoop, htf, hsz, hr] at h
      exact Pass1Result.noConfusion h
  | case16 b rest addr m counter op htf h1 h2 h3 =>
    intro c0 ts instrs m2 c2 hm hc hnd h
    rcases hso : Opcode.instruction_size op with _ | sz
    · simp only [decodeLoop, htf, hso] at h
      exact Pass1Result.noConfusion h
    · match sz, hso with
      | 0, hso =>
        simp only [decodeLoop, htf, hso] at h
        exact Pass1Result.noConfusion h
      | 1, hso => exact (h1 hso).elim
      | 2, hso => exact (h2 hso).elim
      | 3, hso => exact (h3 hso).elim
      | n + 4, hso =>
        simp only [decodeLoop, htf, hso] at h
        exact Pass1Result.noConfusion h

/-! ### Facts about the label-insertion pass -/

theorem nonlabel_of_instrOpcode {x : Instruction} {op : Opcode} (h : instrOpcode x = some op) :
    x.isLabel = false := by
  cases x <;> simp [instrOpcode, Instruction.isLabel] at h ⊢

theorem isLabelAt_nonlabel {x : Instruction} (h : x.isLabel = false) (t : Nat) :
    isLabelAt t x = false := by
  cases x <;> simp [Instruction.isLabel, isLabelAt] at h ⊢

theorem outWF_cons_nonlabel {x : Instruction} (h : x.isLabel = false)
    (rest : List Instruction) (r : Nat) :
    outWF (x :: rest) r ↔ x.addr = r ∧ outWF rest (r + x.size) := by
  cases x with
  | Label a nm => simp [Instruction.isLabel] at h
  | Jump a op t nm =>
    rw [outWF]
    intro a1 name1 heq
    exact Instruction.noConfusion heq
  | Instr a op ops =>
    rw [outWF]
    intro a1 name1 heq
    exact Instruction.noConfusion heq

theorem outWF_cons_label (a : Nat) (nm : String) (rest : List Instruction) (r : Nat) :
    outWF (.Label a nm :: rest) r ↔
      a = r ∧
      (match rest with
       | [] => False
       | ins :: _ => ins.isLabel = false) ∧
      outWF rest r := Iff.rfl

theorem pass1WF_addr_le : ∀ (l : List Instruction) (a : Nat), pass1WF l a →
    ∀ ins ∈ l, a ≤ ins.addr := by
  intro l
  induction l with
  | nil => intro a _ ins hmem; cases hmem
  | cons x rest ih =>
    intro a hwf ins hmem
    rw [pass1WF] at hwf
    obtain ⟨hx, op, sz, hop, hsz, hxsz, hrest⟩ := hwf
    rcases List.mem_cons.mp hmem with rfl | hmem2
    · exact le_of_eq hx.symm
    · have := ih (a + sz) hrest ins hmem2
      omega

theorem insertLabels_some : ∀ (l : List Instruction) (a : Nat) (m : LabelMap),
    pass1WF l a → ∃ out, insertLabels l a m = some out := by
  intro l
  induction l with
  | nil => intro a m _; exact ⟨[], rfl⟩
  | cons x rest ih =>
    intro a m hwf
    rw [pass1WF] at hwf
    obtain ⟨hx, op, sz, hop, hsz, hxsz, hrest⟩ := hwf
    obtain ⟨tail, htail⟩ := ih (a + sz) m hrest
    refine ⟨(match getByLeft m a with
              | some label => [Instruction.Label a label]
              | none => []) ++ x :: tail, ?_⟩
    simp only [insertLabels, hop, hsz, htail]

theorem insertLabels_step {x : Instruction} {rest : List Instruction} {a : Nat} {m : LabelMap}
    {op : Opcode} {sz : Nat} {out : List Instruction}
    (hop : instrOpcode x = some op) (hsz : Opcode.instruction_size op = some sz)
    (h : insertLabels (x :: rest) a m = some out) :
    ∃ tail, insertLabels rest (a + sz) m = some tail ∧
      out = (match getByLeft m a with
             | some label => [Instruction.Label a label]
             | none => []) ++ x :: tail := by
  simp only [insertLabels, hop, hsz] at h
  cases htail : insertLabels rest (a + sz) m with
  | none => rw [htail] at h; exact Option.noConfusion h
  | some tail =>
    rw [htail] at h
    exact ⟨tail, rfl, (Option.some.inj h).symm⟩

theorem insertLabels_flatten : ∀ (l : List Instruction) (a : Nat) (m : LabelMap)
    (out : List Instruction), pass1WF l a → insertLabels l a m = some out →
    (out.map Instruction.to_bytes).flatten = (l.map Instruction.to_bytes).flatten := by
  intro l
  induction l with
  | nil =>
    intro a m out _ h
    cases h
    rfl
  | cons x rest ih =>
    intro a m out hwf h
    rw [pass1WF] at hwf
    obtain ⟨hx, op, sz, hop, hsz, hxsz, hrest⟩ := hwf
    obtain ⟨tail, htail, hout⟩ := insertLabels_step hop hsz h
    subst hout
    have ihr := ih (a + sz) m tail hrest htail
    cases hgl : getByLeft m a <;>
      simp [hgl, Instruction.to_bytes, ihr]

theorem insertLabels_jumpTargets : ∀ (l : List Instruction) (a : Nat) (m : LabelMap)
    (out : List Instruction), pass1WF l a → insertLabels l a m = some out →
    jumpTargets out = jumpTargets l := by
  intro l
  induction l with
  | nil =>
    intro a m out _ h
    cases h
    rfl
  | cons x rest ih =>
    intro a m out hwf h
    rw [pass1WF] at hwf
    obtain ⟨hx, op, sz, hop, hsz, hxsz, hrest⟩ := hwf
    obtain ⟨tail, htail, hout⟩ := insertLabels_step hop hsz h
    subst hout
    have ihr := ih (a + sz) m tail hrest htail
    cases hgl : getByLeft m a <;>
      cases x <;>
        simp_all [jumpTargets, instrOpcode]

theorem insertLabels_mem_nonlabel : ∀ (l : List Instruction) (a : Nat) (m : LabelMap)
    (out : List Instruction), pass1WF l a → insertLabels l a m = some out →
    ∀ ins : Instruction, ins.isLabel = false → (ins ∈ out ↔ ins ∈ l) := by
  intro l
  induction l with
  | nil =>
    intro a m out _ h ins _
    cases h
    rfl
  | cons x rest ih =>
    intro a m out hwf h ins hins
    rw [pass1WF] at hwf
    obtain ⟨hx, op, sz, hop, hsz, hxsz, hrest⟩ := hwf
    obtain ⟨tail, htail, hout⟩ := insertLabels_step hop hsz h
    subst hout
    have ihr := ih (a + sz) m tail hrest htail ins hins
    rcases hgl : getByLeft m a with _ | lbl
    · simp only [hgl]
      simp [ihr]
    · simp only [hgl]
      have hne : ins ≠ Instruction.Label a lbl := by
        intro heq
        rw [heq] at hins
        simp [Instruction.isLabel] at hins
      simp [List.mem_cons, hne, ihr]

theorem byteLen_nil : byteLen [] = 0 := rfl

theorem byteLen_cons (x : Instruction) (l : List Instruction) :
    byteLen (x :: l) = x.size + byteLen l := by
  simp [byteLen]

theorem insertLabels_outWF : ∀ (l : List Instruction) (a : Nat) (m : LabelMap)
    (out : List Instruction), pass1WF l a → insertLabels l a m = some out →
    outWF out a := by
  intro l
  induction l with
  | nil =>
    intro a m out _ h
    cases h
    trivial
  | cons x rest ih =>
    intro a m out hwf h
    rw [pass1WF] at hwf
    obtain ⟨hx, op, sz, hop, hsz, hxsz, hrest⟩ := hwf
    obtain ⟨tail, htail, hout⟩ := insertLabels_step hop hsz h
    subst hout
    have hnl : x.isLabel = false := nonlabel_of_instrOpcode hop
    have ihr := ih (a + sz) m tail hrest htail
    have hxa : outWF (x :: tail) a := by
      rw [outWF_cons_nonlabel hnl]
      refine ⟨hx, ?_⟩
      rw [hxsz]
      exact ihr
    rcases hgl : getByLeft m a with _ | lbl
    · simp only [hgl]
      exact hxa
    · simp only [hgl]
      rw [List.cons_append, List.nil_append, outWF_cons_label]
      exact ⟨rfl, hnl, hxa⟩

theorem insertLabels_countP : ∀ (l : List Instruction) (a : Nat) (m : LabelMap)
    (out : List Instruction), pass1WF l a → insertLabels l a m = some out →
    ∀ t, out.countP (isLabelAt t) =
      if t ∈ l.map Instruction.addr ∧ (getByLeft m t).isSome then 1 else 0 := by
  intro l
  induction l with
  | nil =>
    intro a m out _ h t
    cases h
    simp
  | cons x rest ih =>
    intro a m out hwf h t
    rw [pass1WF] at hwf
    obtain ⟨hx, op, sz, hop, hsz, hxsz, hrest⟩ := hwf
    obtain ⟨tail, htail, hout⟩ := insertLabels_step hop hsz h
    subst hout
    have hnl : x.isLabel = false := nonlabel_of_instrOpcode hop
    have hszpos : 1 ≤ sz := instrSizeByte_pos hsz
    have hibound := pass1WF_addr_le rest (a + sz) hrest
    have hxcount : isLabelAt t x = false := isLabelAt_nonlabel hnl t
    have ihr := ih (a + sz) m tail hrest htail t
    by_cases hta : t = a
    · subst hta
      have hnotrest : t ∉ rest.map Instruction.addr := by
        intro hmem
        obtain ⟨ins, hins, hia⟩ := List.mem_map.mp hmem
        have := hibound ins hins
        omega
      have htail0 : tail.countP (isLabelAt t) = 0 := by
        rw [ihr, if_neg]
        exact fun hcond => hnotrest hcond.1
      have hmemx : t ∈ (x :: rest).map Instruction.addr := by
        rw [List.map_cons, hx]
        exact List.mem_cons_self _ _
      rcases hgl : getByLeft m t with _ | lbl
      · simp only [hgl]
        rw [List.nil_append, List.countP_cons, htail0, hxcount]
        simp
      · simp only [hgl]
        rw [List.cons_append, List.nil_append, List.countP_cons, List.countP_cons,
          htail0, hxcount]
        have hself : isLabelAt t (Instruction.Label t lbl) = true := by
          simp [isLabelAt]
        rw [hself]
        simp [hx]
    · have hmemiff : (t ∈ (x :: rest).map Instruction.addr) ↔ t ∈ rest.map Instruction.addr := by
        rw [List.map_cons, List.mem_cons, hx]
        constructor
        · rintro (rfl | hm)
          · exact absurd rfl hta
          · exact hm
        · exact Or.inr
      rcases hgl : getByLeft m a with _ | lbl
      · simp only [hgl]
        rw [List.nil_append, List.countP_cons, hxcount, ihr]
        simp only [hmemiff]
        simp
      · simp only [hgl]
        have hlblt : isLabelAt t (Instruction.Label a lbl) = false := by
          simp [isLabelAt]
          exact fun hc => absurd hc.symm hta
        rw [List.cons_append, List.nil_append, List.countP_cons, List.countP_cons,
          hxcount, hlblt, ihr]
        simp only [hmemiff]
        simp

theorem outWF_addr_of_split : ∀ (l1 : List Instruction) (r : Nat) (ins : Instruction)
    (l2 : List Instruction), outWF (l1 ++ ins :: l2) r →
    ins.addr = r + byteLen l1 := by
  intro l1
  induction l1 with
  | nil =>
    intro r ins l2 h
    rw [List.nil_append] at h
    rw [byteLen_nil]
    cases hins : ins.isLabel with
    | false =>
      rw [outWF_cons_nonlabel hins] at h
      omega
    | true =>
      cases ins <;> simp [Instruction.isLabel] at hins
      rw [outWF_cons_label] at h
      simp [Instruction.addr, h.1]
  | cons y l1h ih =>
    intro r ins l2 h
    rw [List.cons_append] at h
    cases hy : y.isLabel with
    | false =>
      rw [outWF_cons_nonlabel hy] at h
      have := ih (r + y.size) ins l2 h.2
      rw [byteLen_cons]
      omega
    | true =>
      cases y <;> simp [Instruction.isLabel] at hy
      rw [outWF_cons_label] at h
      obtain ⟨h1, h2, h3⟩ := h
      have := ih r ins l2 h3
      rw [byteLen_cons]
      simpa [Instruction.size, Instruction.to_bytes] using this

theorem outWF_label_next : ∀ (l1 : List Instruction) (r a : Nat) (nm : String)
    (l2 : List Instruction), outWF (l1 ++ .Label a nm :: l2) r →
    ∃ ins l2h, l2 = ins :: l2h ∧ ins.isLabel = false ∧ ins.addr = a := by
  intro l1
  induction l1 with
  | nil =>
    intro r a nm l2 h
    rw [List.nil_append, outWF_cons_label] at h
    obtain ⟨h1, h2, h3⟩ := h
    cases l2 with
    | nil => exact h2.elim
    | cons ins l2h =>
      have hnl : ins.isLabel = false := h2
      rw [outWF_cons_nonlabel hnl] at h3
      exact ⟨ins, l2h, rfl, hnl, h3.1.trans h1.symm⟩
  | cons y l1h ih =>
    intro r a nm l2 h
    rw [List.cons_append] at h
    cases hy : y.isLabel with
    | false =>
      rw [outWF_cons_nonlabel hy] at h
      exact ih (r + y.size) a nm l2 h.2
    | true =>
      cases y <;> simp [Instruction.isLabel] at hy
      rw [outWF_cons_label] at h
      exact ih r a nm l2 h.2.2

theorem disassemble_ok_elim {bytes : List Nat} {c : Nat} {out : List Instruction}
    (h : disassemble bytes c = .ok out) :
    ∃ is1 m1 c1, decodeLoop bytes 0 [] c = .ok is1 m1 c1 ∧ insertLabels is1 0 m1 = some out := by
  unfold disassemble at h
  cases hd : decodeLoop bytes 0 [] c with
  | ok is1 m1 c1 =>
    simp only [hd] at h
    cases hi : insertLabels is1 0 m1 with
    | none =>
      simp only [hi] at h
      exact DResult.noConfusion h
    | some out2 =>
      simp only [hi] at h
      exact ⟨is1, m1, c1, rfl, by rw [hi, DResult.ok.inj h]⟩
  | error e =>
    simp only [hd] at h
    exact DResult.noConfusion h
  | panic =>
    simp only [hd] at h
    exact DResult.noConfusion h

/-! ### Appending input to a successful decode -/

theorem decodeLoop_append :
    ∀ (bs1 : List Nat) (addr : Nat) (m : LabelMap) (c : Nat)
      (bs2 : List Nat) (is1 : List Instruction) (m1 : LabelMap) (c1 : Nat),
      decodeLoop bs1 addr m c = .ok is1 m1 c1 →
      decodeLoop (bs1 ++ bs2) addr m c =
        match decodeLoop bs2 (addr + bs1.length) m1 c1 with
        | .ok is2 m2 c2 => .ok (is1 ++ is2) m2 c2
        | r => r := by
  intro bs1 addr m c
  induction bs1, addr, m, c using decodeLoop.induct with
  | case1 addr m counter =>
    intro bs2 is1 m1 c1 h
    simp only [decodeLoop] at h
    cases h
    rw [List.nil_append, List.length_nil, Nat.add_zero]
    cases hres : decodeLoop bs2 addr m counter <;> simp
  | case2 b rest addr m counter cf htf =>
    intro bs2 is1 m1 c1 h
    simp only [decodeLoop, htf] at h
    exact Pass1Result.noConfusion h
  | case3 b rest addr m counter op htf hsz isr mr cr hrec ih =>
    intro bs2 is1 m1 c1 h
    simp only [decodeLoop, htf, hsz, hrec] at h
    cases h
    rw [List.cons_append]
    simp only [decodeLoop, htf, hsz]
    rw [ih bs2 isr mr cr hrec]
    have hlen : addr + 1 + rest.length = addr + (b :: rest).length := by
      rw [List.length_cons]
      omega
    rw [hlen]
    cases hres : decodeLoop bs2 (addr + (b :: rest).length) mr cr <;> simp
  | case4 b rest addr m counter op htf hsz hnotok ih =>
    intro bs2 is1 m1 c1 h
    cases hr : decodeLoop rest (addr + 1) m counter with
    | ok isr mr cr => exact (hnotok isr mr cr hr).elim
    | error e =>
      simp only [decodeLoop, htf, hsz, hr] at h
      exact Pass1Result.noConfusion h
    | panic =>
      simp only [decodeLoop, htf, hsz, hr] at h
      exact Pass1Result.noConfusion h
  | case5 b addr m counter op htf hsz =>
    intro bs2 is1 m1 c1 h
    simp only [decodeLoop, htf, hsz] at h
    exact Pass1Result.noConfusion h
  | case6 b addr m counter op htf hsz operand rest2 hjump label hfound isr mr cr hrec ih =>
    intro bs2 is1 m1 c1 h
    simp only [decodeLoop, htf, hsz, hjump, if_true, hfound, hrec] at h
    cases h
    rw [List.cons_append, List.cons_append]
    simp only [decodeLoop, htf, hsz, hjump, if_true, hfound]
    rw [ih bs2 isr mr cr hrec]
    have hlen : addr + 2 + rest2.length = addr + (b :: operand :: rest2).length := by
      rw [List.length_cons, List.length_cons]
      omega
    rw [hlen]
    cases hres : decodeLoop bs2 (addr + (b :: operand :: rest2).length) mr cr <;> simp
  | case7 b addr m counter op htf hsz operand rest2 hjump label hfound hnotok ih =>
    intro bs2 is1 m1 c1 h
    cases hr : decodeLoop rest2 (addr + 2) m counter with
    | ok isr mr cr => exact (hnotok isr mr cr hr).elim
    | error e =>
      simp only [decodeLoop, htf, hsz, hjump, if_true, hfound, hr] at h
      exact Pass1Result.noConfusion h
    | panic =>
      simp only [decodeLoop, htf, hsz, hjump, if_true, hfound, hr] at h
      exact Pass1Result.noConfusion h
  | case8 b addr m counter op htf hsz operand rest2 hjump hnone isr mr cr hrec ih =>
    intro bs2 is1 m1 c1 h
    simp only [decodeLoop, htf, hsz, hjump, if_true, hnone, hrec] at h
    cases h
    rw [List.cons_append, List.cons_append]
    simp only [decodeLoop, htf, hsz, hjump, if_true, hnone]
    rw [ih bs2 isr mr cr hrec]
    have hlen : addr + 2 + rest2.length = addr + (b :: operand :: rest2).length := by
      rw [List.length_cons, List.length_cons]
      omega
    rw [hlen]
    cases hres : decodeLoop bs2 (addr + (b :: operand :: rest2).length) mr cr <;> simp
  | case9 b addr m counter op htf hsz operand rest2 hjump hnone hnotok ih =>
    intro bs2 is1 m1 c1 h
    cases hr : decodeLoop rest2 (addr + 2) ((operand, gensym "l" counter) :: m) (counter + 1) with
    | ok isr mr cr => exact (hnotok isr mr cr hr).elim
    | error e =>
      simp only [decodeLoop, htf, hsz, hjump, if_true, hnone, hr] at h
      exact Pass1Result.noConfusion h
    | panic =>
      simp only [decodeLoop, htf, hsz, hjump, if_true, hnone, hr] at h
      exact Pass1Result.noConfusion h
  | case10 b addr m counter op htf hsz operand rest2 hnjump isr mr cr hrec ih =>
    intro bs2 is1 m1 c1 h
    simp only [decodeLoop, htf, hsz] at h
    rw [if_neg hnjump] at h
    simp only [hrec] at h
    cases h
    rw [List.cons_append, List.cons_append]
    simp only [decodeLoop, htf, hsz]
    rw [if_neg hnjump]
    rw [ih bs2 isr mr cr hrec]
    have hlen : addr + 2 + rest2.length = addr + (b :: operand :: rest2).length := by
      rw [List.length_cons, List.length_cons]
      omega
    rw [hlen]
    cases hres : decodeLoop bs2 (addr + (b :: operand :: rest2).length) mr cr <;> simp
  | case11 b addr m counter op htf hsz operand rest2 hnjump hnotok ih =>
    intro bs2 is1 m1 c1 h
    cases hr : decodeLoop rest2 (addr + 2) m counter with
    | ok isr mr cr => exact (hnotok isr mr cr hr).elim
    | error e =>
      simp only [decodeLoop, htf, hsz] at h
      rw [if_neg hnjump] at h
      simp only [hr] at h
      exact Pass1Result.noConfusion h
    | panic =>
      simp only [decodeLoop, htf, hsz] at h
      rw [if_neg hnjump] at h
      simp only [hr] at h
      exact Pass1Result.noConfusion h
  | case12 b addr m counter op htf hsz =>
    intro bs2 is1 m1 c1 h
    simp only [decodeLoop, htf, hsz] at h
    exact Pass1Result.noConfusion h
  | case13 b addr m counter op htf hsz hd =>
    intro bs2 is1 m1 c1 h
    simp only [decodeLoop, htf, hsz] at h
    exact Pass1Result.noConfusion h
  | case14 b addr m counter op htf hsz o1 o2 rest2 isr mr cr hrec ih =>
    intro bs2 is1 m1 c1 h
    simp only [decodeLoop, htf, hsz, hrec] at h
    cases h
    rw [List.cons_append, List.cons_append, List.cons_append]
    simp only [decodeLoop, htf, hsz]
    rw [ih bs2 isr mr cr hrec]
    have hlen : addr + 3 + rest2.length = addr + (b :: o1 :: o2 :: rest2).length := by
      rw [List.length_cons, List.length_cons, List.length_cons]
      omega
    rw [hlen]
    cases hres : decodeLoop bs2 (addr + (b :: o1 :: o2 :: rest2).length) mr cr <;> simp
  | case15 b addr m counter op htf hsz o1 o2 rest2 hnotok ih =>
    intro bs2 is1 m1 c1 h
    cases hr : decodeLoop rest2 (addr + 3) m counter with
    | ok isr mr cr => exact (hnotok isr mr cr hr).elim
    | error e =>
      simp only [decodeLoop, htf, hsz, hr] at h
      exact Pass1Result.noConfusion h
    | panic =>
      simp only [decodeLoop, htf, hsz, hr] at h
      exact Pass1Result.noConfusion h
  | case16 b rest addr m counter op htf h1 h2 h3 =>
    intro bs2 is1 m1 c1 h
    rcases hso : Opcode.instruction_size op with _ | sz
    · simp only [decodeLoop, htf, hso] at h
      exact Pass1Result.noConfusion h
    · match sz, hso with
      | 0, hso =>
        simp only [decodeLoop, htf, hso] at h
        exact Pass1Result.noConfusion h
      | 1, hso => exact (h1 hso).elim
      | 2, hso => exact (h2 hso).elim
      | 3, hso => exact (h3 hso).elim
      | n + 4, hso =>
        simp only [decodeLoop, htf, hso] at h
        exact Pass1Result.noConfusion h

/-! ### Claim theorems -/

/-- C5: decoding the bytes `[0x7f, 0x0a, 0xbc, 0x05, 0xc7, 0x0c, 0x04, 0xbd]`
(with the gensym counter at 0, i.e. a fresh process) succeeds and returns
exactly `[Instr(0, MVI_A, One 0x0a), Jump(2, CALL, 0x05, "l0"),
Instr(4, HLT, Zero), Label(5, "l0"), Instr(5, ADDI_A, One 0x04),
Instr(7, RET, Zero)]`. -/
theorem C5_scenario_b :
    disassemble [0x7f, 0x0a, 0xbc, 0x05, 0xc7, 0x0c, 0x04, 0xbd] 0 =
      .ok [.Instr 0 ⟨MVI_A, by decide⟩ (.One 0x0a),
           .Jump 2 ⟨CALL, by decide⟩ 0x05 "l0",
           .Instr 4 ⟨HLT, by decide⟩ .Zero,
           .Label 5 "l0",
           .Instr 5 ⟨ADDI_A, by decide⟩ (.One 0x04),
           .Instr 7 ⟨RET, by decide⟩ .Zero] := by
  decide

/-- C1: for every byte buffer on which `disassemble` succeeds, concatenating
`Instruction::to_bytes` over each element of the returned sequence in order
(labels contributing zero bytes) reproduces the original input buffer byte
for byte. -/
theorem C1_roundtrip (bytes : List Nat) (c : Nat) (out : List Instruction)
    (h : disassemble bytes c = .ok out) :
    (out.map Instruction.to_bytes).flatten = bytes := by
  obtain ⟨is1, m1, c1, hdec, hins⟩ := disassemble_ok_elim h
  obtain ⟨_, _, _, _, hrt, hwf⟩ :=
    decodeLoop_ok_spec bytes 0 [] c c [] is1 m1 c1 rfl (by simp) List.nodup_nil hdec
  rw [insertLabels_flatten is1 0 m1 out hwf hins, hrt]

/-- Witness for C1 at the spec's Scenario B bytes. -/
theorem C1_roundtrip_witness :
    disassemble [0x7f, 0x0a, 0xbc, 0x05, 0xc7, 0x0c, 0x04, 0xbd] 0 =
      .ok [.Instr 0 ⟨MVI_A, by decide⟩ (.One 0x0a),
           .Jump 2 ⟨CALL, by decide⟩ 0x05 "l0",
           .Instr 4 ⟨HLT, by decide⟩ .Zero,
           .Label 5 "l0",
           .Instr 5 ⟨ADDI_A, by decide⟩ (.One 0x04),
           .Instr 7 ⟨RET, by decide⟩ .Zero] ∧
    (([.Instr 0 ⟨MVI_A, by decide⟩ (.One 0x0a),
       .Jump 2 ⟨CALL, by decide⟩ 0x05 "l0",
       .Instr 4 ⟨HLT, by decide⟩ .Zero,
       .Label 5 "l0",
       .Instr 5 ⟨ADDI_A, by decide⟩ (.One 0x04),
       .Instr 7 ⟨RET, by decide⟩ .Zero] : List Instruction).map
         Instruction.to_bytes).flatten = [0x7f, 0x0a, 0xbc, 0x05, 0xc7, 0x0c, 0x04, 0xbd] :=
  ⟨by decide, C1_roundtrip _ 0 _ (by decide)⟩

set_option maxRecDepth 8000 in
/-- C8: every byte `0x00..0xc8` converts to an opcode, its table size is
1, 2 or 3 (the panic arm is unreachable), the three size-range arms are
pairwise disjoint, all 12 jump-class opcodes have size 2, exactly the one
opcode `0x9e` (stsi) has size 3, and there are exactly 12 jump-class bytes. -/
theorem C8_opcode_table : ∀ b, b < 0xc9 →
    (∃ op : Opcode, Opcode.tryFrom b = .ok op ∧ op.val = b) ∧
    (instrSizeByte b = some 1 ∨ instrSizeByte b = some 2 ∨ instrSizeByte b = some 3) ∧
    (¬(sizeOneRange b ∧ sizeTwoRange b) ∧ ¬(sizeOneRange b ∧ sizeThreeRange b) ∧
      ¬(sizeTwoRange b ∧ sizeThreeRange b)) ∧
    (isJumpByte b = true → instrSizeByte b = some 2) ∧
    (instrSizeByte b = some 3 ↔ b = 0x9e) ∧
    ((List.range 0xc9).filter isJumpByte).length = 12 := by
  have hdec : ∀ b, b < 0xc9 →
      (instrSizeByte b = some 1 ∨ instrSizeByte b = some 2 ∨ instrSizeByte b = some 3) ∧
      (¬(sizeOneRange b ∧ sizeTwoRange b) ∧ ¬(sizeOneRange b ∧ sizeThreeRange b) ∧
        ¬(sizeTwoRange b ∧ sizeThreeRange b)) ∧
      (isJumpByte b = true → instrSizeByte b = some 2) ∧
      (instrSizeByte b = some 3 ↔ b = 0x9e) ∧
      ((List.range 0xc9).filter isJumpByte).length = 12 := by decide
  intro b hb
  exact ⟨⟨⟨b, Nat.lt_succ_iff.mp hb⟩, tryFrom_valid (Nat.lt_succ_iff.mp hb), rfl⟩, hdec b hb⟩

/-- Witness for C8 at the 3-byte opcode `0x9e` (stsi). -/
theorem C8_opcode_table_witness :
    (∃ op : Opcode, Opcode.tryFrom 0x9e = .ok op ∧ op.val = 0x9e) ∧
    (instrSizeByte 0x9e = some 1 ∨ instrSizeByte 0x9e = some 2 ∨ instrSizeByte 0x9e = some 3) ∧
    (¬(sizeOneRange 0x9e ∧ sizeTwoRange 0x9e) ∧ ¬(sizeOneRange 0x9e ∧ sizeThreeRange 0x9e) ∧
      ¬(sizeTwoRange 0x9e ∧ sizeThreeRange 0x9e)) ∧
    (isJumpByte 0x9e = true → instrSizeByte 0x9e = some 2) ∧
    (instrSizeByte 0x9e = some 3 ↔ (0x9e : Nat) = 0x9e) ∧
    ((List.range 0xc9).filter isJumpByte).length = 12 :=
  C8_opcode_table 0x9e (by decide)

/-- C3 counterexample: the `InvalidOpcode` error does not carry the address.
The byte `0xdf` at offset 0 and at offset 3 (the spec's Scenario C offset,
using the repository's own test buffer) produce the very same error value,
so the error cannot name the offset at which the byte occurred. -/
theorem C3_counterexample :
    disassemble [0xdf] 0 = .error (.InvalidOpcode 0xdf) ∧
    disassemble [0x80, 0x05, 0xc5, 0xdf, 0xc7] 0 = .error (.InvalidOpcode 0xdf) ∧
    disassemble [0x80, 0x05, 0xc5, 0xdf, 0xc7] 0 = disassemble [0xdf] 0 := by
  decide

/-- C3 amended: when the buffer contains a byte outside the valid opcode
range at an instruction-start offset (a point where decoding the preceding
bytes succeeded), decoding fails with an `InvalidOpcode` error carrying
exactly the offending byte value (and no address). -/
theorem C3_invalid_opcode (pre : List Nat) (b : Nat) (rest : List Nat) (c : Nat)
    (is1 : List Instruction) (m1 : LabelMap) (c1 : Nat)
    (hpre : decodeLoop pre 0 [] c = .ok is1 m1 c1)
    (hb : 0xc8 < b) (hbyte : b < 0x100) :
    disassemble (pre ++ b :: rest) c = .error (.InvalidOpcode b) := by
  unfold disassemble
  rw [decodeLoop_append pre 0 [] c (b :: rest) is1 m1 c1 hpre]
  rw [show decodeLoop (b :: rest) (0 + pre.length) m1 c1 = .error (.InvalidOpcode b) by
    simp [decodeLoop, tryFrom_invalid hb]]

/-- Witness for C3's amended claim at the repository's own invalid-opcode
test buffer: `0xdf` at offset 3. -/
theorem C3_invalid_opcode_witness :
    decodeLoop [0x80, 0x05, 0xc5] 0 [] 0 =
      .ok [.Instr 0 ⟨0x80, by decide⟩ (.One 0x05), .Instr 2 ⟨0xc5, by decide⟩ .Zero] [] 0 ∧
    (0xc8 : Nat) < 0xdf ∧ (0xdf : Nat) < 0x100 ∧
    disassemble ([0x80, 0x05, 0xc5] ++ 0xdf :: [0xc7]) 0 = .error (.InvalidOpcode 0xdf) :=
  ⟨by decide, by decide, by decide,
    C3_invalid_opcode [0x80, 0x05, 0xc5] 0xdf [0xc7] 0
      [.Instr 0 ⟨0x80, by decide⟩ (.One 0x05), .Instr 2 ⟨0xc5, by decide⟩ .Zero] [] 0
      (by decide) (by decide) (by decide)⟩

/-- C7: if the buffer ends after an opcode byte (decoded at an
instruction-start offset) but before all operand bytes required by that
opcode's encoding length have been read, the whole decode call returns
exactly `UnexpectedEndOfFile` naming that opcode, with no partial
instruction sequence. -/
theorem C7_truncated (pre : List Nat) (b : Nat) (rest : List Nat) (c : Nat)
    (is1 : List Instruction) (m1 : LabelMap) (c1 : Nat)
    (hpre : decodeLoop pre 0 [] c = .ok is1 m1 c1)
    (hop : b ≤ 0xc8) (sz : Nat) (hsz : instrSizeByte b = some sz)
    (hshort : rest.length + 1 < sz) :
    disassemble (pre ++ b :: rest) c = .error (.UnexpectedEndOfFile ⟨b, hop⟩) := by
  unfold disassemble
  rw [decodeLoop_append pre 0 [] c (b :: rest) is1 m1 c1 hpre]
  have hstep : decodeLoop (b :: rest) (0 + pre.length) m1 c1
      = .error (.UnexpectedEndOfFile ⟨b, hop⟩) := by
    rcases instrSizeByte_values hsz with rfl | rfl | rfl
    · omega
    · have hrest : rest = [] := by
        cases rest with
        | nil => rfl
        | cons x xs =>
          exfalso
          rw [List.length_cons] at hshort
          omega
      subst hrest
      simp [decodeLoop, tryFrom_valid hop, Opcode.instruction_size, hsz]
    · cases rest with
      | nil => simp [decodeLoop, tryFrom_valid hop, Opcode.instruction_size, hsz]
      | cons x xs =>
        cases xs with
        | nil => simp [decodeLoop, tryFrom_valid hop, Opcode.instruction_size, hsz]
        | cons y ys =>
          exfalso
          rw [List.length_cons, List.length_cons] at hshort
          omega
  rw [hstep]

/-- Witness for C7 at the repository's own truncation test buffer: the
2-byte opcode `0x97` (lds) as the final byte. -/
theorem C7_truncated_witness :
    decodeLoop [0xc8, 0xc8, 0x6f] 0 [] 0 =
      .ok [.Instr 0 ⟨NOP, by decide⟩ .Zero, .Instr 1 ⟨NOP, by decide⟩ .Zero,
           .Instr 2 ⟨0x6f, by decide⟩ .Zero] [] 0 ∧
    instrSizeByte 0x97 = some 2 ∧ ([] : List Nat).length + 1 < 2 ∧
    disassemble ([0xc8, 0xc8, 0x6f] ++ 0x97 :: []) 0 =
      .error (.UnexpectedEndOfFile ⟨LDS_A, by decide⟩) :=
  ⟨by decide, by decide, by decide,
    C7_truncated [0xc8, 0xc8, 0x6f] 0x97 [] 0
      [.Instr 0 ⟨NOP, by decide⟩ .Zero, .Instr 1 ⟨NOP, by decide⟩ .Zero,
       .Instr 2 ⟨0x6f, by decide⟩ .Zero] [] 0
      (by decide) (by decide) 2 (by decide) (by decide)⟩

/-- C4 counterexample: the gensym counter is a process-wide static, not
local to a call. The first call on `[0xb1, 0x00]` (entering with counter 0)
ends with counter 1, and a second invocation on the very same buffer, now
entering with counter 1, returns a different output ("l1" instead of "l0"). -/
theorem C4_counterexample :
    (∃ is1 m1, decodeLoop [0xb1, 0x00] 0 [] 0 = .ok is1 m1 1) ∧
    disassemble [0xb1, 0x00] 0 ≠ disassemble [0xb1, 0x00] 1 := by
  constructor
  · exact ⟨[.Jump 0 ⟨JMP, by decide⟩ 0 "l0"], [(0, "l0")], by decide⟩
  · decide

/-- Everything a successful `disassemble` run guarantees, packaged for the
claim theorems below. -/
theorem disassemble_ok_analysis {bytes : List Nat} {c : Nat} {out : List Instruction}
    (h : disassemble bytes c = .ok out) :
    ∃ is1 m1,
      insertLabels is1 0 m1 = some out ∧
      pass1WF is1 0 ∧
      m1 = mapOf c (dedupFirst (jumpTargets is1)) ∧
      (dedupFirst (jumpTargets is1)).Nodup ∧
      (∀ a op t nm, Instruction.Jump a op t nm ∈ is1 →
        t ∈ dedupFirst (jumpTargets is1) ∧
        nm = gensym "l" (c + (dedupFirst (jumpTargets is1)).indexOf t)) ∧
      jumpTargets out = jumpTargets is1 ∧
      (∀ ins : Instruction, ins.isLabel = false → (ins ∈ out ↔ ins ∈ is1)) ∧
      outWF out 0 ∧
      (∀ t, out.countP (isLabelAt t) =
        if t ∈ is1.map Instruction.addr ∧ (getByLeft m1 t).isSome then 1 else 0) := by
  obtain ⟨is1, m1, c1, hdec, hins⟩ := disassemble_ok_elim h
  obtain ⟨hm1, hc1, hnd, hj4, hrt, hwf⟩ :=
    decodeLoop_ok_spec bytes 0 [] c c [] is1 m1 c1 rfl (by simp) List.nodup_nil hdec
  exact ⟨is1, m1, hins, hwf, hm1, hnd, hj4,
    insertLabels_jumpTargets is1 0 m1 out hwf hins,
    fun ins hnl => insertLabels_mem_nonlabel is1 0 m1 out hwf hins ins hnl,
    insertLabels_outWF is1 0 m1 out hwf hins,
    insertLabels_countP is1 0 m1 out hwf hins⟩

theorem byteLen_filter_nonlabel : ∀ l : List Instruction,
    byteLen (l.filter fun i => !i.isLabel) = byteLen l := by
  intro l
  induction l with
  | nil => rfl
  | cons x rest ih =>
    cases hx : x.isLabel with
    | true =>
      cases x <;> simp [Instruction.isLabel] at hx
      rw [List.filter_cons_of_neg (by simp [Instruction.isLabel]), ih, byteLen_cons]
      simp [Instruction.size, Instruction.to_bytes]
    | false =>
      rw [List.filter_cons_of_pos (by simp [hx]), byteLen_cons, byteLen_cons, ih]

/-- C4 corrected: `disassemble` is a deterministic function of the byte
buffer and the value of the process-global gensym counter at entry, but the
counter is not local to a call: the first distinct jump target of a call
entering with counter `c` is named `gensym "l" c`, which is "l0" exactly
when `c = 0`, not in every call. -/
theorem C4_first_label_depends_on_counter (bytes : List Nat) (c : Nat)
    (out : List Instruction) (h : disassemble bytes c = .ok out)
    (a : Nat) (op : Opcode) (t : Nat) (nm : String)
    (hj : Instruction.Jump a op t nm ∈ out)
    (hfirst : (dedupFirst (jumpTargets out)).indexOf t = 0) :
    nm = gensym "l" c ∧ (nm = "l0" ↔ c = 0) := by
  obtain ⟨is1, m1, hins, hwf, hm1, hnd, hj4, hjt, hmemiff, houtWF, hcount⟩ :=
    disassemble_ok_analysis h
  have hjm : Instruction.Jump a op t nm ∈ is1 :=
    (hmemiff (Instruction.Jump a op t nm) rfl).mp hj
  obtain ⟨hmem, hnm⟩ := hj4 a op t nm hjm
  rw [hjt] at hfirst
  rw [hnm, hfirst, Nat.add_zero]
  constructor
  · rfl
  · constructor
    · intro he
      have : gensym "l" c = gensym "l" 0 := by
        rw [show gensym "l" 0 = "l0" by decide]
        exact he
      exact gensym_injective "l" this
    · intro he
      rw [he]
      decide

/-- Witness for C4's corrected claim: a call entering with counter 1 names
its first (and only) jump target "l1", not "l0". -/
theorem C4_first_label_depends_on_counter_witness :
    disassemble [0xb1, 0x00] 1 =
      .ok [.Label 0 "l1", .Jump 0 ⟨JMP, by decide⟩ 0 "l1"] ∧
    (dedupFirst (jumpTargets [.Label 0 "l1", .Jump 0 ⟨JMP, by decide⟩ 0 "l1"])).indexOf 0 = 0 ∧
    ("l1" = gensym "l" 1 ∧ ("l1" = "l0" ↔ (1 : Nat) = 0)) :=
  ⟨by decide, by decide,
    C4_first_label_depends_on_counter [0xb1, 0x00] 1
      [.Label 0 "l1", .Jump 0 ⟨JMP, by decide⟩ 0 "l1"] (by decide)
      0 ⟨JMP, by decide⟩ 0 "l1" (by decide) (by decide)⟩

/-- C6: within one disassembly call entering with gensym counter `c`, every
jump's label is `gensym "l" (c + i)` where `i` is the position of its target
in the list of distinct targets in first-encounter order; hence a target
that already has a name always receives the same name again, and two jumps
with distinct targets never share a name. -/
theorem C6_label_naming (bytes : List Nat) (c : Nat) (out : List Instruction)
    (h : disassemble bytes c = .ok out) :
    (∀ a op t nm, Instruction.Jump a op t nm ∈ out →
       t ∈ dedupFirst (jumpTargets out) ∧
       nm = gensym "l" (c + (dedupFirst (jumpTargets out)).indexOf t)) ∧
    (∀ a1 op1 t1 nm1 a2 op2 t2 nm2,
       Instruction.Jump a1 op1 t1 nm1 ∈ out →
       Instruction.Jump a2 op2 t2 nm2 ∈ out →
       (t1 = t2 → nm1 = nm2) ∧ (t1 ≠ t2 → nm1 ≠ nm2)) := by
  obtain ⟨is1, m1, hinsl, hwf, hm1, hnd, hj4, hjt, hmemiff, houtWF, hcount⟩ :=
    disassemble_ok_analysis h
  have hpart1 : ∀ a op t nm, Instruction.Jump a op t nm ∈ out →
      t ∈ dedupFirst (jumpTargets out) ∧
      nm = gensym "l" (c + (dedupFirst (jumpTargets out)).indexOf t) := by
    intro a op t nm hj
    have hjm : Instruction.Jump a op t nm ∈ is1 :=
      (hmemiff (Instruction.Jump a op t nm) rfl).mp hj
    rw [hjt]
    exact hj4 a op t nm hjm
  refine ⟨hpart1, ?_⟩
  intro a1 op1 t1 nm1 a2 op2 t2 nm2 hj1 hj2
  obtain ⟨hmm1, hn1⟩ := hpart1 a1 op1 t1 nm1 hj1
  obtain ⟨hmm2, hn2⟩ := hpart1 a2 op2 t2 nm2 hj2
  constructor
  · intro he
    rw [hn1, hn2, he]
  · intro hne heq
    rw [hn1, hn2] at heq
    have hidx := gensym_injective "l" heq
    have hieq : List.indexOf t1 (dedupFirst (jumpTargets out))
        = List.indexOf t2 (dedupFirst (jumpTargets out)) := by omega
    exact hne ((List.indexOf_inj hmm1 hmm2).mp hieq)

/-- Witness for C6 on a buffer with two distinct targets (6 then 0) and a
repeated target: names are "l0", "l1", "l0" in first-encounter order. -/
theorem C6_label_naming_witness :
    disassemble [0xb1, 0x06, 0xb1, 0x00, 0xb1, 0x06] 0 =
      .ok [.Label 0 "l1", .Jump 0 ⟨JMP, by decide⟩ 6 "l0",
           .Jump 2 ⟨JMP, by decide⟩ 0 "l1", .Jump 4 ⟨JMP, by decide⟩ 6 "l0"] ∧
    (6 ∈ dedupFirst (jumpTargets
        [.Label 0 "l1", .Jump 0 ⟨JMP, by decide⟩ 6 "l0",
         .Jump 2 ⟨JMP, by decide⟩ 0 "l1", .Jump 4 ⟨JMP, by decide⟩ 6 "l0"]) ∧
      "l0" = gensym "l" (0 + (dedupFirst (jumpTargets
        [.Label 0 "l1", .Jump 0 ⟨JMP, by decide⟩ 6 "l0",
         .Jump 2 ⟨JMP, by decide⟩ 0 "l1", .Jump 4 ⟨JMP, by decide⟩ 6 "l0"])).indexOf 6)) ∧
    ("l0" ≠ "l1") :=
  ⟨by decide,
    (C6_label_naming [0xb1, 0x06, 0xb1, 0x00, 0xb1, 0x06] 0
        [.Label 0 "l1", .Jump 0 ⟨JMP, by decide⟩ 6 "l0",
         .Jump 2 ⟨JMP, by decide⟩ 0 "l1", .Jump 4 ⟨JMP, by decide⟩ 6 "l0"]
        (by decide)).1 4 ⟨JMP, by decide⟩ 6 "l0" (by decide),
    ((C6_label_naming [0xb1, 0x06, 0xb1, 0x00, 0xb1, 0x06] 0
        [.Label 0 "l1", .Jump 0 ⟨JMP, by decide⟩ 6 "l0",
         .Jump 2 ⟨JMP, by decide⟩ 0 "l1", .Jump 4 ⟨JMP, by decide⟩ 6 "l0"]
        (by decide)).2 0 ⟨JMP, by decide⟩ 6 "l0" 2 ⟨JMP, by decide⟩ 0 "l1"
        (by decide) (by decide)).2 (by decide)⟩

/-- C2: if a jump's raw target byte value equals the address of some
non-label instruction of the final sequence, then the final sequence
contains exactly one `Label` whose address equals that target. -/
theorem C2_unique_label_at_target (bytes : List Nat) (c : Nat) (out : List Instruction)
    (h : disassemble bytes c = .ok out)
    (a : Nat) (op : Opcode) (t : Nat) (nm : String)
    (hj : Instruction.Jump a op t nm ∈ out)
    (ins : Instruction) (hins : ins ∈ out) (hnl : ins.isLabel = false)
    (haddr : ins.addr = t) :
    out.countP (isLabelAt t) = 1 := by
  obtain ⟨is1, m1, hinsl, hwf, hm1, hnd, hj4, hjt, hmemiff, houtWF, hcount⟩ :=
    disassemble_ok_analysis h
  have hmemins : ins ∈ is1 := (hmemiff ins hnl).mp hins
  have htaddr : t ∈ is1.map Instruction.addr := List.mem_map.mpr ⟨ins, hmemins, haddr⟩
  have hjmem : Instruction.Jump a op t nm ∈ is1 :=
    (hmemiff (Instruction.Jump a op t nm) rfl).mp hj
  obtain ⟨htmem, _⟩ := hj4 a op t nm hjmem
  have hsome : (getByLeft m1 t).isSome = true := by
    rw [hm1, getByLeft_mapOf_mem c hnd htmem]
    rfl
  rw [hcount t, if_pos ⟨htaddr, hsome⟩]

/-- Witness for C2 at the spec's Scenario B: the call targets address 5,
which is the address of the `addi` instruction, and exactly one label sits
at address 5. -/
theorem C2_unique_label_at_target_witness :
    disassemble [0x7f, 0x0a, 0xbc, 0x05, 0xc7, 0x0c, 0x04, 0xbd] 0 =
      .ok [.Instr 0 ⟨MVI_A, by decide⟩ (.One 0x0a),
           .Jump 2 ⟨CALL, by decide⟩ 0x05 "l0",
           .Instr 4 ⟨HLT, by decide⟩ .Zero,
           .Label 5 "l0",
           .Instr 5 ⟨ADDI_A, by decide⟩ (.One 0x04),
           .Instr 7 ⟨RET, by decide⟩ .Zero] ∧
    ([.Instr 0 ⟨MVI_A, by decide⟩ (.One 0x0a),
      .Jump 2 ⟨CALL, by decide⟩ 0x05 "l0",
      .Instr 4 ⟨HLT, by decide⟩ .Zero,
      .Label 5 "l0",
      .Instr 5 ⟨ADDI_A, by decide⟩ (.One 0x04),
      .Instr 7 ⟨RET, by decide⟩ .Zero] : List Instruction).countP (isLabelAt 5) = 1 :=
  ⟨by decide,
    C2_unique_label_at_target [0x7f, 0x0a, 0xbc, 0x05, 0xc7, 0x0c, 0x04, 0xbd] 0
      [.Instr 0 ⟨MVI_A, by decide⟩ (.One 0x0a),
       .Jump 2 ⟨CALL, by decide⟩ 0x05 "l0",
       .Instr 4 ⟨HLT, by decide⟩ .Zero,
       .Label 5 "l0",
       .Instr 5 ⟨ADDI_A, by decide⟩ (.One 0x04),
       .Instr 7 ⟨RET, by decide⟩ .Zero] (by decide)
      2 ⟨CALL, by decide⟩ 5 "l0" (by decide)
      (.Instr 5 ⟨ADDI_A, by decide⟩ (.One 0x04)) (by decide) (by decide) (by decide)⟩

/-- C9: in a successful decode's final sequence, every non-label element's
stored address equals the total encoding length of the non-label elements
preceding it, and every label marker is immediately followed by a non-label
element with the same address. -/
theorem C9_addresses (bytes : List Nat) (c : Nat) (out : List Instruction)
    (h : disassemble bytes c = .ok out) :
    (∀ l1 ins l2, out = l1 ++ ins :: l2 → ins.isLabel = false →
       ins.addr = byteLen (l1.filter fun i => !i.isLabel)) ∧
    (∀ l1 a nm l2, out = l1 ++ Instruction.Label a nm :: l2 →
       ∃ ins l2x, l2 = ins :: l2x ∧ ins.isLabel = false ∧ ins.addr = a) := by
  obtain ⟨is1, m1, hinsl, hwf, hm1, hnd, hj4, hjt, hmemiff, houtWF, hcount⟩ :=
    disassemble_ok_analysis h
  constructor
  · intro l1 ins l2 heq _
    have hw : outWF (l1 ++ ins :: l2) 0 := heq ▸ houtWF
    have hsplit := outWF_addr_of_split l1 0 ins l2 hw
    rw [byteLen_filter_nonlabel]
    omega
  · intro l1 a nm l2 heq
    have hw : outWF (l1 ++ Instruction.Label a nm :: l2) 0 := heq ▸ houtWF
    exact outWF_label_next l1 0 a nm l2 hw

/-- Witness for C9 at the spec's Scenario B: the `addi` at address 5 is
preceded by non-label instructions of total size 5, and the label at 5 is
immediately followed by that `addi`. -/
theorem C9_addresses_witness :
    disassemble [0x7f, 0x0a, 0xbc, 0x05, 0xc7, 0x0c, 0x04, 0xbd] 0 =
      .ok [.Instr 0 ⟨MVI_A, by decide⟩ (.One 0x0a),
           .Jump 2 ⟨CALL, by decide⟩ 0x05 "l0",
           .Instr 4 ⟨HLT, by decide⟩ .Zero,
           .Label 5 "l0",
           .Instr 5 ⟨ADDI_A, by decide⟩ (.One 0x04),
           .Instr 7 ⟨RET, by decide⟩ .Zero] ∧
    (Instruction.Instr 5 ⟨ADDI_A, by decide⟩ (.One 0x04)).addr =
      byteLen (([.Instr 0 ⟨MVI_A, by decide⟩ (.One 0x0a),
                 .Jump 2 ⟨CALL, by decide⟩ 0x05 "l0",
                 .Instr 4 ⟨HLT, by decide⟩ .Zero,
                 .Label 5 "l0"] : List Instruction).filter fun i => !i.isLabel) ∧
    (∃ ins l2x,
      ([.Instr 5 ⟨ADDI_A, by decide⟩ (.One 0x04),
        .Instr 7 ⟨RET, by decide⟩ .Zero] : List Instruction) = ins :: l2x ∧
      ins.isLabel = false ∧ ins.addr = 5) :=
  ⟨by decide,
    (C9_addresses [0x7f, 0x0a, 0xbc, 0x05, 0xc7, 0x0c, 0x04, 0xbd] 0
        [.Instr 0 ⟨MVI_A, by decide⟩ (.One 0x0a),
         .Jump 2 ⟨CALL, by decide⟩ 0x05 "l0",
         .Instr 4 ⟨HLT, by decide⟩ .Zero,
         .Label 5 "l0",
         .Instr 5 ⟨ADDI_A, by decide⟩ (.One 0x04),
         .Instr 7 ⟨RET, by decide⟩ .Zero] (by decide)).1
      [.Instr 0 ⟨MVI_A, by decide⟩ (.One 0x0a),
       .Jump 2 ⟨CALL, by decide⟩ 0x05 "l0",
       .Instr 4 ⟨HLT, by decide⟩ .Zero,
       .Label 5 "l0"]
      (.Instr 5 ⟨ADDI_A, by decide⟩ (.One 0x04))
      [.Instr 7 ⟨RET, by decide⟩ .Zero] (by decide) (by decide),
    (C9_addresses [0x7f, 0x0a, 0xbc, 0x05, 0xc7, 0x0c, 0x04, 0xbd] 0
        [.Instr 0 ⟨MVI_A, by decide⟩ (.One 0x0a),
         .Jump 2 ⟨CALL, by decide⟩ 0x05 "l0",
         .Instr 4 ⟨HLT, by decide⟩ .Zero,
         .Label 5 "l0",
         .Instr 5 ⟨ADDI_A, by decide⟩ (.One 0x04),
         .Instr 7 ⟨RET, by decide⟩ .Zero] (by decide)).2
      [.Instr 0 ⟨MVI_A, by decide⟩ (.One 0x0a),
       .Jump 2 ⟨CALL, by decide⟩ 0x05 "l0",
       .Instr 4 ⟨HLT, by decide⟩ .Zero]
      5 "l0"
      [.Instr 5 ⟨ADDI_A, by decide⟩ (.One 0x04),
       .Instr 7 ⟨RET, by decide⟩ .Zero] (by decide)⟩

/-- C10: when a successful decode contains a jump whose target byte value
is not the address of any non-label instruction of the output, no label
marker with that address appears anywhere in the output (the jump itself is
present, carrying its generated name). -/
theorem C10_unmatched_target_no_label (bytes : List Nat) (c : Nat) (out : List Instruction)
    (h : disassemble bytes c = .ok out)
    (a : Nat) (op : Opcode) (t : Nat) (nm : String)
    (hj : Instruction.Jump a op t nm ∈ out)
    (hnotarget : ∀ ins ∈ out, ins.isLabel = false → ins.addr ≠ t) :
    ∀ nm2, Instruction.Label t nm2 ∉ out := by
  obtain ⟨is1, m1, hinsl, hwf, hm1, hnd, hj4, hjt, hmemiff, houtWF, hcount⟩ :=
    disassemble_ok_analysis h
  intro nm2 hmem
  obtain ⟨l1, l2, heq⟩ := List.append_of_mem hmem
  obtain ⟨ins, l2x, hl2, hinl, hina⟩ :=
    outWF_label_next l1 0 t nm2 l2 (heq ▸ houtWF)
  have hinout : ins ∈ out := by
    rw [heq, hl2]
    exact List.mem_append_right _ (List.mem_cons_of_mem _ (List.mem_cons_self _ _))
  exact hnotarget ins hinout hinl hina

/-- Witness for C10: `jmp 0x63` decodes successfully even though `0x63`
is past the end of the stream; the output holds the jump with its generated
name and no label. -/
theorem C10_unmatched_target_no_label_witness :
    disassemble [0xb1, 0x63] 0 = .ok [.Jump 0 ⟨JMP, by decide⟩ 0x63 "l0"] ∧
    Instruction.Label 0x63 "l0" ∉
      ([.Jump 0 ⟨JMP, by decide⟩ 0x63 "l0"] : List Instruction) :=
  ⟨by decide,
    C10_unmatched_target_no_label [0xb1, 0x63] 0 [.Jump 0 ⟨JMP, by decide⟩ 0x63 "l0"]
      (by decide) 0 ⟨JMP, by decide⟩ 0x63 "l0" (by decide) (by decide) "l0"⟩

end Stew3d
